import Mathlib

/-!
Shallow embedding of the deadlock-simulator core (process / resource
allocation model, RAG-based deadlock detection, banker-style safety check,
and the deadlock resolver) together with theorems about its behaviour.

Python dictionaries are modelled as insertion-ordered association lists
over natural-number keys.  Lists of resource objects held inside a process
are modelled as lists of resource ids; object aliasing between a process
and the system-wide resource table is modelled by threading the resource
table explicitly through every operation that, in the source, mutates a
resource object in place.
-/

namespace DeadlockSim

/-- Lookup in an insertion-ordered association list (dict access d.get(k)). -/
def getKey {α : Type} (m : List (Nat × α)) (k : Nat) : Option α :=
  match m with
  | [] => none
  | (k0, v) :: rest => if k0 = k then some v else getKey rest k

/-- Membership test for a key (the python test k in d). -/
def hasKey {α : Type} (m : List (Nat × α)) (k : Nat) : Bool :=
  (getKey m k).isSome

/-- Dict write d[k] = v: replace the entry in place if the key is present,
append a fresh entry otherwise (python dicts keep insertion order). -/
def setKey {α : Type} (m : List (Nat × α)) (k : Nat) (v : α) : List (Nat × α) :=
  match m with
  | [] => [(k, v)]
  | (k0, v0) :: rest => if k0 = k then (k0, v) :: rest else (k0, v0) :: setKey rest k v

/-- Dict deletion del d[k]. -/
def delKey {α : Type} (m : List (Nat × α)) (k : Nat) : List (Nat × α) :=
  match m with
  | [] => []
  | (k0, v0) :: rest => if k0 = k then delKey rest k else (k0, v0) :: delKey rest k

/-- Sum of the values of a dict of counts (sum(d.values())). -/
def sumValues (m : List (Nat × Nat)) : Nat :=
  (m.map Prod.snd).sum

/-- Process status values used by the source (BLOCKED is declared in the
source comment but never assigned). -/
inductive Status where
  | RUNNING
  | WAITING
  | BLOCKED
  | TERMINATED
deriving DecidableEq, Repr

/-- Embedding of class Process (src/core/process.py).  The lists of
resource objects are represented by the lists of their ids. -/
structure Process where
  pid : Nat
  resources_held : List Nat
  resources_requested : List Nat
  status : Status
deriving DecidableEq, Repr

/-- Embedding of class Resource (src/core/resource.py). -/
structure Resource where
  rid : Nat
  total_instances : Nat
  available_instances : Nat
  allocated_to : List (Nat × Nat)
deriving DecidableEq, Repr

/-- Resource.is_available: at least one instance is free. -/
def Resource.is_available (r : Resource) : Bool :=
  decide (0 < r.available_instances)

/-- Resource.allocate: allocate instances to the process with the given id
when enough instances are available; returns success and the updated
resource. -/
def Resource.allocate (r : Resource) (pid : Nat) (instances : Nat) : Bool × Resource :=
  if instances ≤ r.available_instances then
    let m :=
      if hasKey r.allocated_to pid then
        setKey r.allocated_to pid ((getKey r.allocated_to pid).getD 0 + instances)
      else
        r.allocated_to ++ [(pid, instances)]
    (true, { r with allocated_to := m,
                    available_instances := r.available_instances - instances })
  else
    (false, r)

/-- Resource.release: release instances held by the process with the given
id (none releases everything that process holds); the entry is deleted when
its count reaches zero. -/
def Resource.release (r : Resource) (pid : Nat) (instances : Option Nat) : Bool × Resource :=
  match getKey r.allocated_to pid with
  | none => (false, r)
  | some cur =>
    let k := instances.getD cur
    if k ≤ cur then
      let m1 := setKey r.allocated_to pid (cur - k)
      let m2 := if cur - k = 0 then delKey m1 pid else m1
      (true, { r with allocated_to := m2,
                      available_instances := r.available_instances + k })
    else
      (false, r)

/-- The fall-through branch of Process.request_resource: queue the request
(idempotently) and mark the process WAITING. -/
def Process.requestWait (p : Process) (r : Resource) : Bool × Process × Resource :=
  (false,
   { p with
     resources_requested :=
       if p.resources_requested.contains r.rid then p.resources_requested
       else p.resources_requested ++ [r.rid],
     status := Status.WAITING },
   r)

/-- Process.request_resource: try to allocate; on success append the
resource to resources_held, otherwise queue the request and wait.  The
updated resource object is returned alongside the updated process. -/
def Process.request_resource (p : Process) (r : Resource) (instances : Nat) :
    Bool × Process × Resource :=
  if r.is_available then
    match r.allocate p.pid instances with
    | (true, r1) =>
      (true, { p with resources_held := p.resources_held ++ [r.rid] }, r1)
    | (false, _) => p.requestWait r
  else
    p.requestWait r

/-- Process.release_resource: release instances of a held resource.  The
source removes the resource from resources_held when the instances argument
is None or equals the count that remains allocated after the release. -/
def Process.release_resource (p : Process) (r : Resource) (instances : Option Nat) :
    Bool × Process × Resource :=
  if p.resources_held.contains r.rid then
    match r.release p.pid instances with
    | (true, r1) =>
      let removeHeld :=
        match instances with
        | none => true
        | some k => k == (getKey r1.allocated_to p.pid).getD 0
      (true,
       if removeHeld then { p with resources_held := p.resources_held.erase r.rid } else p,
       r1)
    | (false, _) => (false, p, r)
  else
    (false, p, r)

/-- One iteration of the release loop in Process.terminate: look the held
id up in the resource table, perform a full release through
Process.release_resource and write the mutated resource back. -/
def terminateStep (acc : Process × List (Nat × Resource)) (rid : Nat) :
    Process × List (Nat × Resource) :=
  match getKey acc.2 rid with
  | none => acc
  | some r =>
    let q := acc.1.release_resource r none
    (q.2.1, setKey acc.2 rid q.2.2)

/-- Process.terminate: release every resource in a copy of resources_held
(full release each) and set the status to TERMINATED.  The resource table
is threaded through to model the in-place mutation of the shared resource
objects; a held id missing from the table (impossible in the source, where
the object itself is stored in the list) is skipped. -/
def Process.terminate (p : Process) (resources : List (Nat × Resource)) :
    Process × List (Nat × Resource) :=
  let res := p.resources_held.foldl terminateStep (p, resources)
  ({ res.1 with status := Status.TERMINATED }, res.2)

/-- Embedding of class System (src/core/system.py). -/
structure System where
  processes : List (Nat × Process)
  resources : List (Nat × Resource)
  time : Nat
deriving DecidableEq, Repr

/-- System.add_process. -/
def System.add_process (s : System) (p : Process) : System :=
  { s with processes := setKey s.processes p.pid p }

/-- System.add_resource. -/
def System.add_resource (s : System) (r : Resource) : System :=
  { s with resources := setKey s.resources r.rid r }

/-- System.request_resource: looks up the process and resource by id and
delegates to Process.request_resource.  The source does not forward its
instances argument, so the call is always made with the default count 1. -/
def System.request_resource (s : System) (pid rid : Nat) (instances : Nat) :
    Bool × System :=
  match getKey s.processes pid, getKey s.resources rid with
  | some p, some r =>
    let q := p.request_resource r 1
    (q.1, { s with processes := setKey s.processes pid q.2.1,
                   resources := setKey s.resources rid q.2.2 })
  | _, _ => (false, s)

/-- System.release_resource: looks up the process and resource by id and
delegates to Process.release_resource.  The source does not forward its
instances argument, so the call is always made with the default None
(release everything). -/
def System.release_resource (s : System) (pid rid : Nat) (instances : Option Nat) :
    Bool × System :=
  match getKey s.processes pid, getKey s.resources rid with
  | some p, some r =>
    let q := p.release_resource r none
    (q.1, { s with processes := setKey s.processes pid q.2.1,
                   resources := setKey s.resources rid q.2.2 })
  | _, _ => (false, s)

/-- Nodes of the resource-allocation graph: the source names them with the
string labels P{pid} and R{rid}. -/
inductive RAGNode where
  | P (pid : Nat)
  | R (rid : Nat)
deriving DecidableEq, Repr

abbrev RAGEdge := RAGNode × RAGNode

/-- DeadlockDetector._create_resource_allocation_graph, reduced to its edge
list: one allocation edge R rid -> P pid per key of allocated_to, one
request edge P pid -> R rid per pending request. -/
def ragEdges (s : System) : List RAGEdge :=
  (s.resources.flatMap fun er =>
    er.2.allocated_to.map fun ep => (RAGNode.R er.1, RAGNode.P ep.1)) ++
  (s.processes.flatMap fun ep =>
    ep.2.resources_requested.map fun rid => (RAGNode.P ep.1, RAGNode.R rid))

/-- Chained edge-walk check: isWalk edges u w v holds when w is a list of
edges of the graph forming a walk from u to v. -/
def isWalk (edges : List RAGEdge) : RAGNode → List RAGEdge → RAGNode → Bool
  | u, [], v => decide (u = v)
  | u, e :: es, v => decide (e ∈ edges) && decide (e.1 = u) && isWalk edges e.2 es v

/-- End node of an edge-walk starting at u. -/
def walkEnd : RAGNode → List RAGEdge → RAGNode
  | u, [] => u
  | _, e :: es => walkEnd e.2 es

/-- All edge-walks of the given length starting at u. -/
def allWalks (edges : List RAGEdge) : Nat → RAGNode → List (List RAGEdge)
  | 0, _ => [[]]
  | n + 1, u =>
    (edges.filter fun e => e.1 == u).flatMap fun e =>
      (allWalks edges n e.2).map fun w => e :: w

/-- Cycle search standing in for networkx.find_cycle: scan every edge
source for a closed walk of length between 1 and the number of edges and
return the first one found (none exactly when the graph is acyclic, the
documented contract of find_cycle). -/
def findCycle (edges : List RAGEdge) : Option (List RAGEdge) :=
  (edges.map Prod.fst).findSome? fun v =>
    (List.range edges.length).findSome? fun n =>
      ((allWalks edges (n + 1) v).filter fun w => walkEnd v w == v).head?

/-- Process ids named by one endpoint of an edge. -/
def pidsOfEdge (e : RAGEdge) : List Nat :=
  (match e.1 with | RAGNode.P pid => [pid] | RAGNode.R _ => []) ++
  (match e.2 with | RAGNode.P pid => [pid] | RAGNode.R _ => [])

/-- Set-style insertion used to model collecting pids into a python set. -/
def dedupAdd (acc : List Nat) (x : Nat) : List Nat :=
  if x ∈ acc then acc else acc ++ [x]

/-- The deduplicated process ids named by the endpoints of the edges of the
found cycle (the python code walks the cycle edges adding every endpoint
whose label starts with P to a set). -/
def cyclePids (w : List RAGEdge) : List Nat :=
  (w.flatMap pidsOfEdge).foldl dedupAdd []

/-- DeadlockDetector.detect_using_resource_allocation_graph. -/
def detect_using_resource_allocation_graph (s : System) : Bool × List Nat :=
  match findCycle (ragEdges s) with
  | some w => (true, cyclePids w)
  | none => (false, [])

/-- Insertion into an ascending list, used to model sorted(keys). -/
def insertAsc (x : Nat) : List Nat → List Nat
  | [] => [x]
  | y :: ys => if x ≤ y then x :: y :: ys else y :: insertAsc x ys

/-- Ascending sort of a key list (sorted(self.system.resources.keys())). -/
def sortAsc (l : List Nat) : List Nat :=
  l.foldr insertAsc []

/-- Resource ids of the system in ascending order. -/
def sortedResourceIds (s : System) : List Nat :=
  sortAsc (s.resources.map Prod.fst)

/-- Instances of resource rid currently allocated to pid, read from the
system table (resource.allocated_to.get(pid, 0)). -/
def allocEntry (s : System) (pid rid : Nat) : Nat :=
  ((getKey s.resources rid).map fun r => (getKey r.allocated_to pid).getD 0).getD 0

/-- Allocation row of one process over the sorted resource ids. -/
def allocRow (s : System) (pid : Nat) : List Nat :=
  (sortedResourceIds s).map fun rid => allocEntry s pid rid

/-- Heuristic max-demand row of one process: current allocation plus one
for each requested resource, floored at 1. -/
def maxDemandRow (s : System) (pid : Nat) (p : Process) : List Nat :=
  (sortedResourceIds s).map fun rid =>
    max (allocEntry s pid rid + (if p.resources_requested.contains rid then 1 else 0)) 1

/-- Entrywise comparison need row <= work. -/
def rowLE (need work : List Nat) : Bool :=
  (need.zip work).all fun q => decide (q.1 ≤ q.2)

/-- Entrywise work := work + allocation row. -/
def addVec (work alloc : List Nat) : List Nat :=
  (work.zip alloc).map fun q => q.1 + q.2

/-- One pass of the inner for-loop of _is_safe_state over the rows
(need, allocation, finish), threading work and reporting progress. -/
def scanRound : List (List Nat × List Nat × Bool) → List Nat →
    List (List Nat × List Nat × Bool) × List Nat × Bool
  | [], work => ([], work, false)
  | (need, alloc, fin) :: rest, work =>
    if !fin && rowLE need work then
      let work1 := addVec work alloc
      let res := scanRound rest work1
      ((need, alloc, true) :: res.1, res.2.1, true)
    else
      let res := scanRound rest work
      ((need, alloc, fin) :: res.1, res.2.1, res.2.2)

/-- The while-loop of _is_safe_state: repeat passes until one makes no
progress.  Fuel bounds the rounds; rows.length + 1 rounds always reach the
unproductive pass since every productive pass finishes at least one row. -/
def scanLoop : Nat → List (List Nat × List Nat × Bool) → List Nat →
    List (List Nat × List Nat × Bool)
  | 0, rows, _ => rows
  | fuel + 1, rows, work =>
    let res := scanRound rows work
    if res.2.2 then scanLoop fuel res.1 res.2.1 else res.1

/-- The banker scan given an already-computed need matrix. -/
def safeScan (available : List Nat) (need allocation : List (List Nat)) : Bool :=
  let rows := (need.zip allocation).map fun q => (q.1, q.2, false)
  let final := scanLoop (rows.length + 1) rows available
  final.all fun t => t.2.2

/-- DeadlockDetector._is_safe_state: need is max_demand minus allocation
(entrywise; max_demand dominates allocation so natural subtraction agrees
with the python integers), then the work/finish scan runs. -/
def is_safe_state (available : List Nat) (max_demand allocation : List (List Nat)) : Bool :=
  let need := (max_demand.zip allocation).map fun q =>
    (q.1.zip q.2).map fun x => x.1 - x.2
  safeScan available need allocation

/-- Waiting process ids in table order (the unsafe branch of the source
reports every process whose status is WAITING at call time). -/
def waitingPids (s : System) : List Nat :=
  (s.processes.filter fun ep => ep.2.status == Status.WAITING).map Prod.fst

/-- DeadlockDetector.detect_using_bankers_algorithm. -/
def detect_using_bankers_algorithm (s : System) : Bool × List Nat :=
  let available := (sortedResourceIds s).map fun rid =>
    ((getKey s.resources rid).map Resource.available_instances).getD 0
  let allocation := s.processes.map fun ep => allocRow s ep.1
  let max_demand := s.processes.map fun ep => maxDemandRow s ep.1 ep.2
  if is_safe_state available max_demand allocation then (false, [])
  else (true, waitingPids s)

/-- Resolution strategies accepted by DeadlockResolver.resolve_deadlock. -/
inductive Strategy where
  | termination
  | preemption
  | rollback
deriving DecidableEq, Repr

/-- DeadlockResolver._select_process.  The call random.choice(deadlocked)
is modelled by the oracle parameter choice; the priority branch keeps the
first process seen holding strictly more resources than any earlier one,
starting from the sentinel count -1. -/
def selectProcess (choice : List Nat → Nat) (s : System) (deadlocked : List Nat)
    (priority_based : Bool) : Option Nat :=
  if deadlocked.isEmpty then none
  else if priority_based then
    (deadlocked.foldl
      (fun acc pid =>
        match getKey s.processes pid with
        | none => acc
        | some p =>
          if (p.resources_held.length : Int) > acc.1 then
            ((p.resources_held.length : Int), some pid)
          else acc)
      ((-1 : Int), (none : Option Nat))).2
  else some (choice deadlocked)

/-- DeadlockResolver._resolve_by_termination.  The python guard
if not process_id: return True is truthiness on Optional[int]: it fires
both on None and on the process id 0. -/
def resolveByTermination (choice : List Nat → Nat) (s : System) (deadlocked : List Nat)
    (priority_based : Bool) : Bool × System :=
  match selectProcess choice s deadlocked priority_based with
  | none => (true, s)
  | some pid =>
    if pid = 0 then (true, s)
    else
      match getKey s.processes pid with
      | none => (false, s)
      | some p =>
        let q := p.terminate s.resources
        let p2 := { q.1 with resources_requested := [] }
        let s1 := { s with processes := setKey s.processes pid p2, resources := q.2 }
        (!(detect_using_resource_allocation_graph s1).1, s1)

/-- DeadlockResolver._resolve_by_preemption.  The preempted resource is
random.choice(process.resources_held), modelled by the oracle; a chosen id
missing from the system table corresponds to preempting a resource object
never registered with the system, whose mutation is invisible to
detection, so the system is left unchanged there. -/
def resolveByPreemption (choice : List Nat → Nat) (s : System) (deadlocked : List Nat)
    (priority_based : Bool) : Bool × System :=
  match selectProcess choice s deadlocked priority_based with
  | none => (true, s)
  | some pid =>
    if pid = 0 then (true, s)
    else
      match getKey s.processes pid with
      | none => (false, s)
      | some p =>
        if p.resources_held.isEmpty then (false, s)
        else
          let rid := choice p.resources_held
          match getKey s.resources rid with
          | none => (!(detect_using_resource_allocation_graph s).1, s)
          | some r =>
            match r.release pid none with
            | (true, r1) =>
              let p1 := { p with resources_held := p.resources_held.erase rid }
              let s1 := { s with processes := setKey s.processes pid p1,
                                 resources := setKey s.resources rid r1 }
              (!(detect_using_resource_allocation_graph s1).1, s1)
            | (false, _) => (!(detect_using_resource_allocation_graph s).1, s)

/-- One iteration of the rollback release loop: release everything the
victim holds of the resource (ignoring the per-release result) and remove
the id from resources_held unconditionally. -/
def rollbackStep (pid : Nat) (acc : Process × List (Nat × Resource)) (rid : Nat) :
    Process × List (Nat × Resource) :=
  match getKey acc.2 rid with
  | none =>
    ({ acc.1 with resources_held := acc.1.resources_held.erase rid }, acc.2)
  | some r =>
    ({ acc.1 with resources_held := acc.1.resources_held.erase rid },
     setKey acc.2 rid (r.release pid none).2)

/-- DeadlockResolver._resolve_by_rollback: release every held resource
(ignoring the per-release result, removing each id from resources_held
unconditionally), clear the pending requests and set the status back to
RUNNING. -/
def resolveByRollback (choice : List Nat → Nat) (s : System) (deadlocked : List Nat)
    (priority_based : Bool) : Bool × System :=
  match selectProcess choice s deadlocked priority_based with
  | none => (true, s)
  | some pid =>
    if pid = 0 then (true, s)
    else
      match getKey s.processes pid with
      | none => (false, s)
      | some p =>
        let q := p.resources_held.foldl (rollbackStep pid) (p, s.resources)
        let p2 := { q.1 with resources_requested := [], status := Status.RUNNING }
        let s1 := { s with processes := setKey s.processes pid p2, resources := q.2 }
        (!(detect_using_resource_allocation_graph s1).1, s1)

/-- DeadlockResolver.resolve_deadlock: detect first, return True when no
deadlock is present, otherwise dispatch on the strategy (the resolution
history log, which no claim observes, is omitted). -/
def resolve_deadlock (choice : List Nat → Nat) (s : System) (strategy : Strategy)
    (priority_based : Bool) : Bool × System :=
  let d := detect_using_resource_allocation_graph s
  if d.1 then
    match strategy with
    | Strategy.termination => resolveByTermination choice s d.2 priority_based
    | Strategy.preemption => resolveByPreemption choice s d.2 priority_based
    | Strategy.rollback => resolveByRollback choice s d.2 priority_based
  else (true, s)

/-- Per-process record of DeadlockResolver._take_snapshot. -/
structure SnapProc where
  status : Status
  resources_held : List Nat
  resources_requested : List Nat
deriving DecidableEq, Repr

/-- Per-resource record of DeadlockResolver._take_snapshot. -/
structure SnapRes where
  total_instances : Nat
  available_instances : Nat
  allocated_to : List (Nat × Nat)
deriving DecidableEq, Repr

/-- Snapshot layout of DeadlockResolver._take_snapshot. -/
structure Snapshot where
  processes : List (Nat × SnapProc)
  resources : List (Nat × SnapRes)
deriving DecidableEq, Repr

/-- DeadlockResolver._take_snapshot: value copy of status, held ids,
requested ids, and of the resource counters and allocation map. -/
def takeSnapshot (s : System) : Snapshot :=
  { processes := s.processes.map fun ep =>
      (ep.1, ⟨ep.2.status, ep.2.resources_held, ep.2.resources_requested⟩),
    resources := s.resources.map fun er =>
      (er.1, ⟨er.2.total_instances, er.2.available_instances, er.2.allocated_to⟩) }

/-- DeadlockResolver._restore_snapshot: rebuild both tables wholesale from
the snapshot.  Rebuilding a process looks every stored id up in the new
resource table (self.system.resources[rid]); a missing id raises KeyError
in the source and is modelled by returning none. -/
def restoreSnapshot (s : System) (snap : Snapshot) : Option System :=
  let newRes := snap.resources.map fun er =>
    (er.1, Resource.mk er.1 er.2.total_instances er.2.available_instances er.2.allocated_to)
  if snap.processes.all (fun ep =>
      ep.2.resources_held.all (fun rid => hasKey newRes rid) &&
      ep.2.resources_requested.all (fun rid => hasKey newRes rid)) then
    some { s with
      processes := snap.processes.map fun ep =>
        (ep.1, Process.mk ep.1 ep.2.resources_held ep.2.resources_requested ep.2.status),
      resources := newRes }
  else none

/-- The public operations a driver can run against the system. -/
inductive Op where
  | request (pid rid instances : Nat)
  | release (pid rid : Nat) (instances : Option Nat)
  | terminate (pid : Nat)
  | resolve (strategy : Strategy) (priority_based : Bool)
  | snapshotRestore
deriving Repr

/-- One public operation applied to the system state.  snapshotRestore is
restore_snapshot(take_snapshot()) performed back to back; a failing restore
leaves the state as it was. -/
def execOp (choice : List Nat → Nat) (s : System) : Op → System
  | Op.request pid rid instances => (s.request_resource pid rid instances).2
  | Op.release pid rid instances => (s.release_resource pid rid instances).2
  | Op.terminate pid =>
    match getKey s.processes pid with
    | none => s
    | some p =>
      let q := p.terminate s.resources
      { s with processes := setKey s.processes pid q.1, resources := q.2 }
  | Op.resolve strategy priority_based =>
    (resolve_deadlock choice s strategy priority_based).2
  | Op.snapshotRestore => (restoreSnapshot s (takeSnapshot s)).getD s

/-- Run a sequence of public operations. -/
def runOps (choice : List Nat → Nat) (s : System) (ops : List Op) : System :=
  ops.foldl (execOp choice) s

/-- A freshly set-up system: fresh processes (no holdings, no requests,
RUNNING) and fresh resources (all instances available, nothing allocated)
registered through add_process / add_resource. -/
def initSystem (pids : List Nat) (resSpecs : List (Nat × Nat)) : System :=
  let s1 := pids.foldl
    (fun s pid => s.add_process (Process.mk pid [] [] Status.RUNNING))
    (System.mk [] [] 0)
  resSpecs.foldl (fun s q => s.add_resource (Resource.mk q.1 q.2 q.2 [])) s1

/-- The graph of the given edge list contains a directed cycle: some node
carries a nonempty closed edge-walk. -/
def HasCycle (edges : List RAGEdge) : Prop :=
  ∃ (v : RAGNode) (w : List RAGEdge), w ≠ [] ∧ isWalk edges v w v = true

/-- Two-process circular wait used to exercise the cycle branch of the RAG
detector: process 1 holds resource 1 and requests resource 2, process 2
holds resource 2 and requests resource 1. -/
def ragWitnessSys : System :=
  { processes := [(1, ⟨1, [1], [2], Status.WAITING⟩),
                  (2, ⟨2, [2], [1], Status.WAITING⟩)],
    resources := [(1, ⟨1, 1, 0, [(1, 1)]⟩),
                  (2, ⟨2, 1, 0, [(2, 1)]⟩)],
    time := 0 }

/-- Inputs exercising both branches of the amended C3 theorem. -/
def reqSpecP1 : Process := ⟨1, [3], [], Status.RUNNING⟩

def reqSpecR1 : Resource := ⟨8, 3, 2, [(9, 1)]⟩

/-- Inputs exercising the amended C5 theorem: a process holding two
resources with a pending third request. -/
def termWitP : Process := ⟨1, [4, 5], [6], Status.WAITING⟩

/-- Resource table for the C5 witness. -/
def termWitM : List (Nat × Resource) :=
  [(4, ⟨4, 1, 0, [(1, 1)]⟩), (5, ⟨5, 2, 1, [(1, 1)]⟩), (6, ⟨6, 1, 1, []⟩)]

/-- Safety check as claim C6 words it, with the need rows equal to the
floored max-demand formula itself: need[p][r] is allocation plus one when
the resource is requested, else the allocation, floored at 1. -/
def safetyCheckClaim (s : System) : Bool × List Nat :=
  let available := (sortedResourceIds s).map fun rid =>
    ((getKey s.resources rid).map Resource.available_instances).getD 0
  let allocation := s.processes.map fun ep => allocRow s ep.1
  let need := s.processes.map fun ep => maxDemandRow s ep.1 ep.2
  if safeScan available need allocation then (false, [])
  else (true, waitingPids s)

/-- Need row the source actually scans with: the floored max-demand minus
the allocation, which is 1 when the resource is requested or nothing of it
is held, else 0. -/
def needRowAmended (s : System) (pid : Nat) (p : Process) : List Nat :=
  (sortedResourceIds s).map fun rid =>
    if p.resources_requested.contains rid then 1
    else if allocEntry s pid rid = 0 then 1 else 0

/-- Safety check with the amended need description of claim C6. -/
def safetyCheckAmended (s : System) : Bool × List Nat :=
  let available := (sortedResourceIds s).map fun rid =>
    ((getKey s.resources rid).map Resource.available_instances).getD 0
  let allocation := s.processes.map fun ep => allocRow s ep.1
  let need := s.processes.map fun ep => needRowAmended s ep.1 ep.2
  if safeScan available need allocation then (false, [])
  else (true, waitingPids s)

/-- C6 counterexample input: one process holding both instances of the
single resource, requesting nothing. -/
def bankSys : System :=
  { processes := [(1, ⟨1, [1], [], Status.RUNNING⟩)],
    resources := [(1, ⟨1, 2, 0, [(1, 2)]⟩)],
    time := 0 }

/-- C7 failing input: a circular wait whose priority-selected victim is
the process with id 0 (process 0 holds resource 1 and requests resource 2,
process 1 holds resource 2 and requests resource 1). -/
def pidZeroSys : System :=
  { processes := [(0, ⟨0, [1], [2], Status.WAITING⟩),
                  (1, ⟨1, [2], [1], Status.WAITING⟩)],
    resources := [(1, ⟨1, 1, 0, [(0, 1)]⟩),
                  (2, ⟨2, 1, 0, [(1, 1)]⟩)],
    time := 0 }

/-- Concrete consistent system for the C8 witness. -/
def snapWitSys : System :=
  { processes := [(1, ⟨1, [3], [4], Status.WAITING⟩),
                  (2, ⟨2, [4], [], Status.RUNNING⟩)],
    resources := [(3, ⟨3, 1, 0, [(1, 1)]⟩),
                  (4, ⟨4, 2, 1, [(2, 1)]⟩)],
    time := 5 }

/-- The conservation invariant of claim C2 for one resource. -/
def ResourceConsistent (r : Resource) : Prop :=
  r.available_instances + sumValues r.allocated_to = r.total_instances

/-- The conservation invariant over every resource of the system. -/
def SysConsistent (s : System) : Prop :=
  ∀ er ∈ s.resources, ResourceConsistent er.2

/-- Internal strengthening of the conservation invariant: conservation
plus uniqueness of the keys of the allocation map (python dict keys are
unique by construction). -/
def ResInv (r : Resource) : Prop :=
  r.available_instances + sumValues r.allocated_to = r.total_instances ∧
  (r.allocated_to.map Prod.fst).Nodup

/-- Internal system-wide invariant. -/
def SysInv (s : System) : Prop :=
  ∀ er ∈ s.resources, ResInv er.2

/-! Association-list lemmas. -/

theorem getKey_setKey_self {α : Type} (m : List (Nat × α)) (k : Nat) (v : α) :
    getKey (setKey m k v) k = some v := by
  induction m with
  | nil => simp [getKey, setKey]
  | cons e rest ih =>
    by_cases h : e.1 = k
    · simp [getKey, setKey, h]
    · simp [getKey, setKey, h, ih]

theorem getKey_setKey_ne {α : Type} (m : List (Nat × α)) (k q : Nat) (v : α)
    (h : q ≠ k) : getKey (setKey m k v) q = getKey m q := by
  have h3 : ¬ (k = q) := fun hh => h hh.symm
  induction m with
  | nil => simp [getKey, setKey, h3]
  | cons e rest ih =>
    by_cases h1 : e.1 = k
    · subst h1
      simp [getKey, setKey, h3]
    · by_cases h2 : e.1 = q <;> simp [getKey, setKey, h1, h2, h3, h, ih]

theorem getKey_delKey_self {α : Type} (m : List (Nat × α)) (k : Nat) :
    getKey (delKey m k) k = none := by
  induction m with
  | nil => simp [getKey, delKey]
  | cons e rest ih =>
    by_cases h : e.1 = k
    · simpa [delKey, h] using ih
    · simpa [delKey, getKey, h] using ih

theorem getKey_delKey_ne {α : Type} (m : List (Nat × α)) (k q : Nat) (h : q ≠ k) :
    getKey (delKey m k) q = getKey m q := by
  have h3 : ¬ (k = q) := fun hh => h hh.symm
  induction m with
  | nil => simp [delKey]
  | cons e rest ih =>
    by_cases h1 : e.1 = k
    · subst h1
      simp [delKey, getKey, h3, ih]
    · by_cases h2 : e.1 = q <;> simp [delKey, getKey, h1, h2, h3, h, ih]

theorem getKey_append_single {α : Type} (m : List (Nat × α)) (k q : Nat) (v : α) :
    getKey (m ++ [(k, v)]) q =
      match getKey m q with
      | some w => some w
      | none => if k = q then some v else none := by
  induction m with
  | nil => simp [getKey]
  | cons e rest ih =>
    by_cases h : e.1 = q <;> simp [getKey, h, ih]

theorem getKey_eq_none_iff {α : Type} (m : List (Nat × α)) (k : Nat) :
    getKey m k = none ↔ k ∉ m.map Prod.fst := by
  induction m with
  | nil => simp [getKey]
  | cons e rest ih =>
    by_cases h : e.1 = k
    · simp [getKey, h]
    · have h2 : ¬ (k = e.1) := fun hh => h hh.symm
      simp [getKey, h, h2, ih]

theorem mapFst_setKey_of_hasKey {α : Type} (m : List (Nat × α)) (k : Nat) (v : α)
    (h : hasKey m k = true) : (setKey m k v).map Prod.fst = m.map Prod.fst := by
  induction m with
  | nil => simp [hasKey, getKey] at h
  | cons e rest ih =>
    by_cases h1 : e.1 = k
    · simp [setKey, h1]
    · have h2 : hasKey rest k = true := by
        simpa [hasKey, getKey, h1] using h
      simp [setKey, h1, ih h2]

theorem sumValues_append_single (m : List (Nat × Nat)) (k v : Nat) :
    sumValues (m ++ [(k, v)]) = sumValues m + v := by
  simp [sumValues]

theorem sumValues_setKey (m : List (Nat × Nat)) (k v cur : Nat)
    (h : getKey m k = some cur) :
    sumValues (setKey m k v) + cur = sumValues m + v := by
  induction m with
  | nil => simp [getKey] at h
  | cons e rest ih =>
    by_cases h1 : e.1 = k
    · simp [getKey, h1] at h
      subst h
      simp [setKey, h1, sumValues]
      omega
    · simp [getKey, h1] at h
      have := ih h
      simp [setKey, h1, sumValues] at this ⊢
      omega

theorem getKey_le_sumValues (m : List (Nat × Nat)) (k cur : Nat)
    (h : getKey m k = some cur) : cur ≤ sumValues m := by
  induction m with
  | nil => simp [getKey] at h
  | cons e rest ih =>
    by_cases h1 : e.1 = k
    · simp [getKey, h1] at h
      subst h
      simp [sumValues]
    · simp [getKey, h1] at h
      have := ih h
      simp [sumValues] at this ⊢
      omega

theorem delKey_eq_self {α : Type} (m : List (Nat × α)) (k : Nat)
    (h : k ∉ m.map Prod.fst) : delKey m k = m := by
  induction m with
  | nil => simp [delKey]
  | cons e rest ih =>
    have h1 : ¬ (e.1 = k) := by
      intro hh
      exact h (by simp [hh])
    have h2 : k ∉ rest.map Prod.fst := by
      intro hh
      exact h (by simp [hh])
    simp [delKey, h1, ih h2]

theorem sumValues_delKey (m : List (Nat × Nat)) (k cur : Nat)
    (hnd : (m.map Prod.fst).Nodup) (h : getKey m k = some cur) :
    sumValues (delKey m k) + cur = sumValues m := by
  induction m with
  | nil => simp [getKey] at h
  | cons e rest ih =>
    rw [List.map_cons, List.nodup_cons] at hnd
    by_cases h1 : e.1 = k
    · simp [getKey, h1] at h
      subst h
      have hnot : k ∉ rest.map Prod.fst := h1 ▸ hnd.1
      have hd : delKey rest k = rest := delKey_eq_self rest k hnot
      simp [delKey, h1, hd, sumValues]
      omega
    · simp [getKey, h1] at h
      have := ih hnd.2 h
      simp [delKey, h1, sumValues] at this ⊢
      omega

theorem delKey_sublist {α : Type} (m : List (Nat × α)) (k : Nat) :
    List.Sublist (delKey m k) m := by
  induction m with
  | nil => simp [delKey]
  | cons e rest ih =>
    by_cases h : e.1 = k
    · simpa [delKey, h] using ih.cons e
    · simpa [delKey, h] using ih.cons₂ e

/-! Walk and cycle lemmas for the RAG cycle search. -/

theorem walkEnd_eq_of_isWalk (edges : List RAGEdge) (w : List RAGEdge) :
    ∀ u v, isWalk edges u w v = true → walkEnd u w = v := by
  induction w with
  | nil =>
    intro u v h
    simpa [isWalk, walkEnd] using h
  | cons e es ih =>
    intro u v h
    simp [isWalk] at h
    simpa [walkEnd] using ih e.2 v h.2

theorem mem_edges_of_isWalk (edges : List RAGEdge) (w : List RAGEdge) :
    ∀ u v, isWalk edges u w v = true → ∀ e ∈ w, e ∈ edges := by
  induction w with
  | nil => simp
  | cons e es ih =>
    intro u v h f hf
    simp [isWalk] at h
    rcases List.mem_cons.mp hf with hf | hf
    · rw [hf]
      exact h.1.1
    · exact ih e.2 v h.2 f hf

theorem mem_allWalks_iff (edges : List RAGEdge) (n : Nat) :
    ∀ (u : RAGNode) (w : List RAGEdge),
      w ∈ allWalks edges n u ↔
        (w.length = n ∧ isWalk edges u w (walkEnd u w) = true) := by
  induction n with
  | zero =>
    intro u w
    simp [allWalks]
    intro h
    subst h
    simp [isWalk, walkEnd]
  | succ n ih =>
    intro u w
    constructor
    · intro h
      simp only [allWalks] at h
      rcases List.mem_flatMap.mp h with ⟨e, he, hw⟩
      rcases List.mem_map.mp hw with ⟨w1, hw1, rfl⟩
      rcases List.mem_filter.mp he with ⟨hee, heu⟩
      have heu2 : e.1 = u := by simpa using heu
      rcases (ih e.2 w1).mp hw1 with ⟨hl, hwk⟩
      refine ⟨by simp [hl], ?_⟩
      simp only [isWalk, walkEnd, Bool.and_eq_true, decide_eq_true_eq]
      exact ⟨⟨hee, heu2⟩, hwk⟩
    · intro hpair
      rcases hpair with ⟨hl, hw⟩
      match w with
      | [] => simp at hl
      | e :: w1 =>
        simp only [isWalk, walkEnd, Bool.and_eq_true, decide_eq_true_eq] at hw
        have hmem : w1 ∈ allWalks edges n e.2 :=
          (ih e.2 w1).mpr ⟨by simpa using hl, hw.2⟩
        simp only [allWalks]
        apply List.mem_flatMap.mpr
        refine ⟨e, List.mem_filter.mpr ⟨hw.1.1, by simp [hw.1.2]⟩, ?_⟩
        exact List.mem_map.mpr ⟨w1, hmem, rfl⟩

theorem isWalk_append_iff (edges : List RAGEdge) (xs ys : List RAGEdge) :
    ∀ u v, isWalk edges u (xs ++ ys) v = true ↔
      (isWalk edges u xs (walkEnd u xs) = true ∧
       isWalk edges (walkEnd u xs) ys v = true) := by
  induction xs with
  | nil =>
    intro u v
    simp [isWalk, walkEnd]
  | cons e es ih =>
    intro u v
    simp [isWalk, walkEnd, ih e.2 v]
    tauto

theorem not_nodup_split {α : Type} (l : List α) (h : ¬ l.Nodup) :
    ∃ (a : α) (l1 l2 l3 : List α), l = l1 ++ a :: (l2 ++ a :: l3) := by
  induction l with
  | nil => exact absurd List.nodup_nil h
  | cons x xs ih =>
    by_cases hx : x ∈ xs
    · rcases List.append_of_mem hx with ⟨s, t, rfl⟩
      exact ⟨x, [], s, t, rfl⟩
    · have hxs : ¬ xs.Nodup := fun hn => h (List.nodup_cons.mpr ⟨hx, hn⟩)
      rcases ih hxs with ⟨a, l1, l2, l3, rfl⟩
      exact ⟨a, x :: l1, l2, l3, rfl⟩

theorem closed_walk_shorten_aux (edges : List RAGEdge) :
    ∀ (n : Nat) (v : RAGNode) (w : List RAGEdge), w.length ≤ n → w ≠ [] →
      isWalk edges v w v = true →
      ∃ w2 : List RAGEdge, w2 ≠ [] ∧ w2.length ≤ edges.length ∧
        isWalk edges v w2 v = true := by
  intro n
  induction n with
  | zero =>
    intro v w hl hne _
    cases w with
    | nil => exact absurd rfl hne
    | cons e es => simp at hl
  | succ n ih =>
    intro v w hl hne hw
    by_cases hle : w.length ≤ edges.length
    · exact ⟨w, hne, hle, hw⟩
    · have hsub : ∀ e ∈ w, e ∈ edges := mem_edges_of_isWalk edges w v v hw
      have hnd : ¬ w.Nodup := by
        intro hn
        exact hle ((hn.subperm hsub).length_le)
      rcases not_nodup_split w hnd with ⟨e, w1, w2, w3, rfl⟩
      have h1 := (isWalk_append_iff edges w1 (e :: (w2 ++ e :: w3)) v v).mp hw
      set m1 := walkEnd v w1 with hm1
      have h2 : isWalk edges m1 (e :: (w2 ++ e :: w3)) v = true := h1.2
      simp only [isWalk, Bool.and_eq_true, decide_eq_true_eq] at h2
      have h3 := (isWalk_append_iff edges w2 (e :: w3) e.2 v).mp h2.2
      have h4 : isWalk edges (walkEnd e.2 w2) (e :: w3) v = true := h3.2
      simp only [isWalk, Bool.and_eq_true, decide_eq_true_eq] at h4
      have hshort : isWalk edges v (w1 ++ e :: w3) v = true := by
        apply (isWalk_append_iff edges w1 (e :: w3) v v).mpr
        refine ⟨h1.1, ?_⟩
        simp only [isWalk, Bool.and_eq_true, decide_eq_true_eq]
        exact ⟨⟨h2.1.1, h2.1.2⟩, h4.2⟩
      have hlen : (w1 ++ e :: w3).length ≤ n := by
        simp only [List.length_append, List.length_cons] at hl ⊢
        omega
      exact ih v (w1 ++ e :: w3) hlen (by simp) hshort

theorem closed_walk_shorten (edges : List RAGEdge) (v : RAGNode) (w : List RAGEdge)
    (hne : w ≠ []) (hw : isWalk edges v w v = true) :
    ∃ w2 : List RAGEdge, w2 ≠ [] ∧ w2.length ≤ edges.length ∧
      isWalk edges v w2 v = true :=
  closed_walk_shorten_aux edges w.length v w le_rfl hne hw

theorem findCycle_eq_some_sound (edges : List RAGEdge) (w : List RAGEdge)
    (h : findCycle edges = some w) :
    w ≠ [] ∧ ∃ v, isWalk edges v w v = true := by
  unfold findCycle at h
  rcases List.exists_of_findSome?_eq_some h with ⟨v, _, hv⟩
  rcases List.exists_of_findSome?_eq_some hv with ⟨n, _, hn⟩
  have hmem : w ∈ (allWalks edges (n + 1) v).filter (fun w0 => walkEnd v w0 == v) :=
    List.mem_of_mem_head? (by simp [hn])
  rw [List.mem_filter] at hmem
  rcases hmem with ⟨hw, hend⟩
  rcases (mem_allWalks_iff edges (n + 1) v w).mp hw with ⟨hl, hwalk⟩
  have hend2 : walkEnd v w = v := by simpa using hend
  rw [hend2] at hwalk
  refine ⟨?_, v, hwalk⟩
  intro hnil
  rw [hnil] at hl
  simp at hl

theorem findCycle_eq_none_sound (edges : List RAGEdge)
    (h : findCycle edges = none) : ¬ HasCycle edges := by
  rintro ⟨v, w, hne, hw⟩
  rcases closed_walk_shorten edges v w hne hw with ⟨w2, hne2, hlen2, hw2⟩
  have hvsrc : v ∈ edges.map Prod.fst := by
    cases w2 with
    | nil => exact absurd rfl hne2
    | cons e es =>
      simp only [isWalk, Bool.and_eq_true, decide_eq_true_eq] at hw2
      exact List.mem_map.mpr ⟨e, hw2.1.1, hw2.1.2⟩
  unfold findCycle at h
  have hv := (List.findSome?_eq_none_iff.mp h) v hvsrc
  have hn : w2.length - 1 ∈ List.range edges.length := by
    rw [List.mem_range]
    cases w2 with
    | nil => exact absurd rfl hne2
    | cons e es => simp at hlen2 ⊢; omega
  have hfilter := (List.findSome?_eq_none_iff.mp hv) (w2.length - 1) hn
  have hle : w2.length - 1 + 1 = w2.length := by
    cases w2 with
    | nil => exact absurd rfl hne2
    | cons e es => simp
  have hmem : w2 ∈ allWalks edges (w2.length - 1 + 1) v :=
    (mem_allWalks_iff edges (w2.length - 1 + 1) v w2).mpr
      ⟨by omega, by rw [walkEnd_eq_of_isWalk edges w2 v v hw2]; exact hw2⟩
  have hmemf : w2 ∈ (allWalks edges (w2.length - 1 + 1) v).filter
      (fun w => walkEnd v w == v) := by
    rw [List.mem_filter]
    exact ⟨hmem, by simp [walkEnd_eq_of_isWalk edges w2 v v hw2]⟩
  rw [List.head?_eq_none_iff] at hfilter
  rw [hfilter] at hmemf
  simp at hmemf

theorem findCycle_eq_none_iff (edges : List RAGEdge) :
    findCycle edges = none ↔ ¬ HasCycle edges := by
  constructor
  · exact findCycle_eq_none_sound edges
  · intro h
    cases hfc : findCycle edges with
    | none => rfl
    | some w =>
      rcases findCycle_eq_some_sound edges w hfc with ⟨hne, v, hw⟩
      exact absurd ⟨v, w, hne, hw⟩ h

theorem mem_dedupAdd (acc : List Nat) (y x : Nat) :
    x ∈ dedupAdd acc y ↔ x ∈ acc ∨ x = y := by
  by_cases h : y ∈ acc
  · simp [dedupAdd, h]
    intro hx
    rw [hx]
    exact h
  · simp [dedupAdd, h]

theorem mem_foldl_dedupAdd (l : List Nat) :
    ∀ (acc : List Nat) (x : Nat), x ∈ l.foldl dedupAdd acc ↔ x ∈ acc ∨ x ∈ l := by
  induction l with
  | nil => simp
  | cons y ys ih =>
    intro acc x
    rw [List.foldl_cons, ih, mem_dedupAdd]
    simp
    tauto

theorem nodup_dedupAdd (acc : List Nat) (y : Nat) (h : acc.Nodup) :
    (dedupAdd acc y).Nodup := by
  by_cases hy : y ∈ acc
  · simpa [dedupAdd, hy] using h
  · simp [dedupAdd, hy, List.nodup_append, h]

theorem nodup_foldl_dedupAdd (l : List Nat) :
    ∀ acc : List Nat, acc.Nodup → (l.foldl dedupAdd acc).Nodup := by
  induction l with
  | nil => exact fun acc h => h
  | cons y ys ih =>
    intro acc h
    rw [List.foldl_cons]
    exact ih (dedupAdd acc y) (nodup_dedupAdd acc y h)

theorem mem_pidsOfEdge (e : RAGEdge) (x : Nat) :
    x ∈ pidsOfEdge e ↔ e.1 = RAGNode.P x ∨ e.2 = RAGNode.P x := by
  rcases e with ⟨a, b⟩
  cases a <;> cases b <;> simp [pidsOfEdge, eq_comm]

theorem mem_cyclePids (w : List RAGEdge) (x : Nat) :
    x ∈ cyclePids w ↔ ∃ e ∈ w, e.1 = RAGNode.P x ∨ e.2 = RAGNode.P x := by
  rw [cyclePids, mem_foldl_dedupAdd]
  simp [List.mem_flatMap, mem_pidsOfEdge]

theorem nodup_cyclePids (w : List RAGEdge) : (cyclePids w).Nodup :=
  nodup_foldl_dedupAdd (w.flatMap pidsOfEdge) [] List.nodup_nil

/-- C1: detect_using_resource_allocation_graph returns (false, []) exactly
when the resource-allocation graph built from the system has no cycle, and
when a cycle exists it returns (true, pids) where pids is the deduplicated
set of the ids of the process nodes lying on the found cycle. -/
theorem rag_detection_correct (s : System) :
    (detect_using_resource_allocation_graph s = (false, []) ↔
      ¬ HasCycle (ragEdges s)) ∧
    (HasCycle (ragEdges s) →
      ∃ (w : List RAGEdge) (v : RAGNode), findCycle (ragEdges s) = some w ∧
        w ≠ [] ∧ isWalk (ragEdges s) v w v = true ∧
        detect_using_resource_allocation_graph s = (true, cyclePids w) ∧
        (cyclePids w).Nodup ∧
        (∀ pid, pid ∈ cyclePids w ↔
          ∃ e ∈ w, e.1 = RAGNode.P pid ∨ e.2 = RAGNode.P pid)) := by
  constructor
  · constructor
    · intro hdet
      apply findCycle_eq_none_sound
      cases hfc : findCycle (ragEdges s) with
      | none => rfl
      | some w =>
        rw [detect_using_resource_allocation_graph, hfc] at hdet
        simp at hdet
    · intro hnc
      have hfc := (findCycle_eq_none_iff (ragEdges s)).mpr hnc
      simp [detect_using_resource_allocation_graph, hfc]
  · intro hc
    cases hfc : findCycle (ragEdges s) with
    | none => exact absurd hc (findCycle_eq_none_sound (ragEdges s) hfc)
    | some w =>
      rcases findCycle_eq_some_sound (ragEdges s) w hfc with ⟨hne, v, hw⟩
      refine ⟨w, v, rfl, hne, hw, ?_, nodup_cyclePids w, mem_cyclePids w⟩
      simp [detect_using_resource_allocation_graph, hfc]

/-- Witness for C1 at the circular-wait system. -/
theorem rag_detection_correct_witness :
    HasCycle (ragEdges ragWitnessSys) ∧
    (detect_using_resource_allocation_graph ragWitnessSys).1 = true := by
  have hc : HasCycle (ragEdges ragWitnessSys) :=
    ⟨RAGNode.P 1,
     [(RAGNode.P 1, RAGNode.R 2), (RAGNode.R 2, RAGNode.P 2),
      (RAGNode.P 2, RAGNode.R 1), (RAGNode.R 1, RAGNode.P 1)],
     by decide, by decide⟩
  refine ⟨hc, ?_⟩
  obtain ⟨w, v, hfc, hne, hw, hdet, hnd, hmem⟩ :=
    (rag_detection_correct ragWitnessSys).2 hc
  rw [hdet]

/-- C10: the System-level wrappers never forward their instances argument:
request always delegates with the default count 1 and release always
delegates with the default None (release all). -/
theorem system_wrappers_ignore_instances (s : System) (pid rid k : Nat)
    (ko : Option Nat) :
    s.request_resource pid rid k = s.request_resource pid rid 1 ∧
    s.release_resource pid rid ko = s.release_resource pid rid none :=
  ⟨rfl, rfl⟩

/-- C9 counterexample: a TERMINATED process requesting an available
resource is granted it and the resource allocation state is mutated; no
validation error path exists in the source. -/
theorem request_no_validation_counterexample :
    (Process.request_resource ⟨2, [], [], Status.TERMINATED⟩ ⟨5, 1, 1, []⟩ 1).1 = true ∧
    (Process.request_resource ⟨2, [], [], Status.TERMINATED⟩ ⟨5, 1, 1, []⟩ 1).2.2.allocated_to
      = [(2, 1)] ∧
    (Process.request_resource ⟨2, [], [], Status.TERMINATED⟩ ⟨5, 1, 1, []⟩ 1).2.2.available_instances
      = 0 := by
  decide

/-- C9 amended: request_resource performs no validation at all; the grant
result, the resource effect and the held and requested lists are
independent of the caller status (TERMINATED included), and the only
status write is WAITING on the wait branch. -/
theorem request_resource_ignores_status (p : Process) (r : Resource) (k : Nat)
    (st : Status) :
    (Process.request_resource { p with status := st } r k).1 =
      (p.request_resource r k).1 ∧
    (Process.request_resource { p with status := st } r k).2.2 =
      (p.request_resource r k).2.2 ∧
    (Process.request_resource { p with status := st } r k).2.1.resources_held =
      (p.request_resource r k).2.1.resources_held ∧
    (Process.request_resource { p with status := st } r k).2.1.resources_requested =
      (p.request_resource r k).2.1.resources_requested ∧
    (Process.request_resource { p with status := st } r k).2.1.status =
      (if (p.request_resource r k).1 then st else Status.WAITING) := by
  rw [Process.request_resource, Process.request_resource]
  by_cases ha : r.is_available
  · simp only [ha, if_true]
    cases hall : r.allocate p.pid k with
    | mk ok r1 =>
      cases ok
      · simp [Process.requestWait]
      · simp
  · simp [ha, Process.requestWait]

/-- Pointwise description of the allocation map after a successful
Resource.allocate. -/
theorem getKey_allocate (r : Resource) (pid k : Nat)
    (h : k ≤ r.available_instances) (q : Nat) :
    getKey (r.allocate pid k).2.allocated_to q =
      (if q = pid then some ((getKey r.allocated_to pid).getD 0 + k)
       else getKey r.allocated_to q) := by
  rw [Resource.allocate]
  simp only [h, if_true]
  by_cases hk : hasKey r.allocated_to pid
  · by_cases hq : q = pid
    · subst hq
      simp [hk, getKey_setKey_self]
    · simp [hk, hq, getKey_setKey_ne r.allocated_to pid q _ hq]
  · have hnone : getKey r.allocated_to pid = none := by
      unfold hasKey at hk
      cases h2 : getKey r.allocated_to pid with
      | none => rfl
      | some v => rw [h2] at hk; simp at hk
    by_cases hq : q = pid
    · subst hq
      simp [hk, getKey_append_single, hnone]
    · have hpq : ¬ (pid = q) := fun hh => hq hh.symm
      simp [hk, getKey_append_single, hq, hpq]
      cases getKey r.allocated_to q <;> simp

/-- C3 counterexample: a grant does not remove the granted resource from
resources_requested: a process with a pending request for resource 7 is
granted it and the stale request entry remains. -/
theorem request_grant_keeps_requested_counterexample :
    (Process.request_resource ⟨1, [], [7], Status.WAITING⟩ ⟨7, 1, 1, []⟩ 1).1 = true ∧
    7 ∈ (Process.request_resource ⟨1, [], [7], Status.WAITING⟩ ⟨7, 1, 1, []⟩ 1).2.1.resources_requested := by
  decide

/-- C3 amended: with instances at least 1, a request is granted exactly
when enough instances are available; the grant decrements the available
count, adds the instances to the allocation entry of the caller, appends
the resource id to resources_held and leaves status and the requested list
unchanged; otherwise the request is queued idempotently, the status is set
to WAITING and the resource is untouched. -/
theorem request_resource_spec (p : Process) (r : Resource) (k : Nat)
    (hk : 1 ≤ k) :
    (k ≤ r.available_instances →
      (p.request_resource r k).1 = true ∧
      (p.request_resource r k).2.1 =
        { p with resources_held := p.resources_held ++ [r.rid] } ∧
      (p.request_resource r k).2.2.available_instances = r.available_instances - k ∧
      (p.request_resource r k).2.2.total_instances = r.total_instances ∧
      (∀ q, getKey (p.request_resource r k).2.2.allocated_to q =
        (if q = p.pid then some ((getKey r.allocated_to p.pid).getD 0 + k)
         else getKey r.allocated_to q))) ∧
    (r.available_instances < k →
      (p.request_resource r k).1 = false ∧
      (p.request_resource r k).2.2 = r ∧
      (p.request_resource r k).2.1 =
        { p with
          resources_requested :=
            if r.rid ∈ p.resources_requested then p.resources_requested
            else p.resources_requested ++ [r.rid],
          status := Status.WAITING }) := by
  constructor
  · intro hle
    have ha : r.is_available = true := by
      rw [Resource.is_available]
      simp
      omega
    have hallOk : (r.allocate p.pid k).1 = true := by
      rw [Resource.allocate]
      simp [hle]
    have hall2 : r.allocate p.pid k = (true, (r.allocate p.pid k).2) := by
      cases hall : r.allocate p.pid k with
      | mk ok r1 =>
        rw [hall] at hallOk
        subst hallOk
        rfl
    rw [Process.request_resource]
    simp only [ha, if_true]
    rw [hall2]
    refine ⟨rfl, rfl, ?_, ?_, ?_⟩
    · rw [Resource.allocate]
      simp [hle]
    · rw [Resource.allocate]
      simp [hle]
    · intro q
      exact getKey_allocate r p.pid k hle q
  · intro hlt
    have hallFail : r.allocate p.pid k = (false, r) := by
      rw [Resource.allocate]
      have : ¬ (k ≤ r.available_instances) := by omega
      simp [this]
    rw [Process.request_resource]
    by_cases ha : r.is_available
    · simp only [ha, if_true, hallFail, Process.requestWait]
      by_cases hmem : r.rid ∈ p.resources_requested <;> simp [hmem]
    · simp only [ha, Bool.false_eq_true, if_false, Process.requestWait]
      by_cases hmem : r.rid ∈ p.resources_requested <;> simp [hmem]

/-- Witness for C3: the amended theorem applied on the grant branch (two
instances of three available) and on the wait branch (two requested, one
available). -/
theorem request_resource_spec_witness :
    (1 ≤ 2 ∧ 2 ≤ reqSpecR1.available_instances ∧
      (Process.request_resource reqSpecP1 reqSpecR1 2).1 = true) ∧
    (reqSpecR1.available_instances < 3 ∧
      (Process.request_resource reqSpecP1 reqSpecR1 3).1 = false) := by
  refine ⟨⟨by decide, by decide, ?_⟩, ⟨by decide, ?_⟩⟩
  · exact ((request_resource_spec reqSpecP1 reqSpecR1 2 (by decide)).1 (by decide)).1
  · exact ((request_resource_spec reqSpecP1 reqSpecR1 3 (by decide)).2 (by decide)).1

/-- C4: evaluating Process.release_resource at the failing inputs.  The
source tests the instances argument against the count remaining after the
release, so an explicit full release (two of two held) keeps the resource
in resources_held although nothing remains allocated, while releasing one
of two removes it although one instance is still held. -/
theorem release_held_removal_bug :
    (Process.release_resource ⟨1, [4], [], Status.RUNNING⟩ ⟨4, 2, 0, [(1, 2)]⟩ (some 2)).1 = true ∧
    getKey (Process.release_resource ⟨1, [4], [], Status.RUNNING⟩ ⟨4, 2, 0, [(1, 2)]⟩ (some 2)).2.2.allocated_to 1 = none ∧
    4 ∈ (Process.release_resource ⟨1, [4], [], Status.RUNNING⟩ ⟨4, 2, 0, [(1, 2)]⟩ (some 2)).2.1.resources_held ∧
    (Process.release_resource ⟨1, [4], [], Status.RUNNING⟩ ⟨4, 2, 0, [(1, 2)]⟩ (some 1)).1 = true ∧
    getKey (Process.release_resource ⟨1, [4], [], Status.RUNNING⟩ ⟨4, 2, 0, [(1, 2)]⟩ (some 1)).2.2.allocated_to 1 = some 1 ∧
    4 ∉ (Process.release_resource ⟨1, [4], [], Status.RUNNING⟩ ⟨4, 2, 0, [(1, 2)]⟩ (some 1)).2.1.resources_held := by
  decide

/-- C5 counterexample: terminating a process with a pending request leaves
resources_requested untouched (the resolver itself compensates by calling
an explicit clear after terminate). -/
theorem terminate_keeps_requested_counterexample :
    (Process.terminate ⟨1, [], [9], Status.WAITING⟩ [(9, ⟨9, 1, 1, []⟩)]).1.resources_requested
      = [9] ∧
    (Process.terminate ⟨1, [], [9], Status.WAITING⟩ [(9, ⟨9, 1, 1, []⟩)]).1.status
      = Status.TERMINATED := by
  decide

theorem terminate_eq_fold (p : Process) (resources : List (Nat × Resource)) :
    p.terminate resources =
      ({ (p.resources_held.foldl terminateStep (p, resources)).1 with
          status := Status.TERMINATED },
       (p.resources_held.foldl terminateStep (p, resources)).2) := by
  rw [Process.terminate]

theorem terminate_fold_spec (pid : Nat) :
    ∀ (lst : List Nat) (q : Process) (mm : List (Nat × Resource)),
      q.pid = pid → q.resources_held = lst → lst.Nodup →
      (∀ rid ∈ lst, ∃ r, getKey mm rid = some r ∧ r.rid = rid ∧
        (getKey r.allocated_to pid).isSome = true) →
      (lst.foldl terminateStep (q, mm)).1 = { q with resources_held := [] } ∧
      (∀ rid ∈ lst, ∃ r, getKey mm rid = some r ∧
        ∃ r1, getKey (lst.foldl terminateStep (q, mm)).2 rid = some r1 ∧
          getKey r1.allocated_to pid = none ∧
          r1.available_instances =
            r.available_instances + (getKey r.allocated_to pid).getD 0 ∧
          r1.total_instances = r.total_instances) ∧
      (∀ rid, rid ∉ lst →
        getKey (lst.foldl terminateStep (q, mm)).2 rid = getKey mm rid) := by
  intro lst
  induction lst with
  | nil =>
    intro q mm hpid hheld _ _
    refine ⟨?_, by simp, by simp⟩
    cases q
    simp at hheld
    simp [hheld]
  | cons rid rest ih =>
    intro q mm hpid hheld hnd hreg
    rcases hreg rid (by simp) with ⟨r, hr, hrid, hsome⟩
    obtain ⟨cur, hcur⟩ : ∃ cur, getKey r.allocated_to pid = some cur := by
      cases h2 : getKey r.allocated_to pid with
      | none => rw [h2] at hsome; simp at hsome
      | some cur => exact ⟨cur, rfl⟩
    have hmem : rid ∈ q.resources_held := by
      rw [hheld]
      simp
    set r1 : Resource :=
      { r with allocated_to := delKey (setKey r.allocated_to pid 0) pid,
               available_instances := r.available_instances + cur } with hr1def
    have hrel : r.release pid none = (true, r1) := by
      rw [Resource.release, hcur]
      simp [hr1def]
    have hrelres : q.release_resource r none = (true,
        { q with resources_held := q.resources_held.erase rid }, r1) := by
      rw [Process.release_resource, hrid, hpid, hrel]
      simp [hmem]
    have hstep : terminateStep (q, mm) rid =
        ({ q with resources_held := q.resources_held.erase rid },
         setKey mm rid r1) := by
      rw [terminateStep]
      simp only [hr, hrelres]
    have herase : q.resources_held.erase rid = rest := by
      rw [hheld]
      exact List.erase_cons_head rid rest
    rw [List.foldl_cons, hstep, herase]
    rw [List.nodup_cons] at hnd
    set mm1 := setKey mm rid r1 with hmm1
    have hmm1get : ∀ rid2, rid2 ≠ rid → getKey mm1 rid2 = getKey mm rid2 := by
      intro rid2 hne
      exact getKey_setKey_ne mm rid rid2 r1 hne
    have ihres := ih { q with resources_held := rest } mm1 hpid rfl hnd.2 (by
      intro rid2 hrid2
      have hne : rid2 ≠ rid := fun hh => hnd.1 (hh ▸ hrid2)
      rcases hreg rid2 (by simp [hrid2]) with ⟨r2, hr2, hrid2f, hsome2⟩
      exact ⟨r2, (hmm1get rid2 hne) ▸ hr2, hrid2f, hsome2⟩)
    refine ⟨?_, ?_, ?_⟩
    · rw [ihres.1]
    · intro rid0 hrid0
      rcases List.mem_cons.mp hrid0 with rfl | hrid0
      · refine ⟨r, hr, r1, ?_, ?_, ?_, ?_⟩
        · rw [ihres.2.2 rid0 hnd.1, hmm1, getKey_setKey_self]
        · rw [hr1def]
          exact getKey_delKey_self _ _
        · rw [hr1def, hcur]
          rfl
        · rw [hr1def]
      · rcases ihres.2.1 rid0 hrid0 with ⟨r2, hr2, r3, hr3, hnone3, havail3, htot3⟩
        have hne : rid0 ≠ rid := fun hh => hnd.1 (hh ▸ hrid0)
        rw [hmm1get rid0 hne] at hr2
        exact ⟨r2, hr2, r3, hr3, hnone3, havail3, htot3⟩
    · intro rid0 hrid0
      have hne : rid0 ≠ rid := fun hh => hrid0 (by simp [hh])
      have hnotin : rid0 ∉ rest := fun hh => hrid0 (by simp [hh])
      rw [ihres.2.2 rid0 hnotin, hmm1get rid0 hne]

/-- C5 amended: on a consistent state (no duplicate held entries, each held
id mapped in the table to a resource carrying that id and an allocation
entry for the process), terminate empties resources_held, removes the
process from the allocation map of every resource it held while adding the
held count back to the available count, leaves resources_requested
unchanged (rather than clearing it), sets the status to TERMINATED and
leaves unrelated resources untouched; running terminate a second time
changes nothing. -/
theorem terminate_spec (p : Process) (resources : List (Nat × Resource))
    (hnd : p.resources_held.Nodup)
    (hreg : ∀ rid ∈ p.resources_held, ∃ r, getKey resources rid = some r ∧
      r.rid = rid ∧ (getKey r.allocated_to p.pid).isSome = true) :
    (p.terminate resources).1.resources_held = [] ∧
    (p.terminate resources).1.resources_requested = p.resources_requested ∧
    (p.terminate resources).1.status = Status.TERMINATED ∧
    (∀ rid ∈ p.resources_held, ∃ r, getKey resources rid = some r ∧
      ∃ r1, getKey (p.terminate resources).2 rid = some r1 ∧
        getKey r1.allocated_to p.pid = none ∧
        r1.available_instances =
          r.available_instances + (getKey r.allocated_to p.pid).getD 0 ∧
        r1.total_instances = r.total_instances) ∧
    (∀ rid, rid ∉ p.resources_held →
      getKey (p.terminate resources).2 rid = getKey resources rid) ∧
    Process.terminate (p.terminate resources).1 (p.terminate resources).2 =
      p.terminate resources := by
  have hfold := terminate_fold_spec p.pid p.resources_held p resources rfl rfl hnd hreg
  rw [terminate_eq_fold]
  refine ⟨by rw [hfold.1], by rw [hfold.1], rfl, ?_, ?_, ?_⟩
  · intro rid hrid
    rcases hfold.2.1 rid hrid with ⟨r, hr, r1, hr1, hnone, havail, htot⟩
    exact ⟨r, hr, r1, hr1, hnone, havail, htot⟩
  · intro rid hrid
    exact hfold.2.2 rid hrid
  · rw [terminate_eq_fold]
    have hheld2 : ({ (p.resources_held.foldl terminateStep (p, resources)).1 with
        status := Status.TERMINATED } : Process).resources_held = [] := by
      rw [hfold.1]
    rw [hheld2]
    simp [List.foldl_nil]

/-- Witness for C5: the amended theorem applied to the concrete process. -/
theorem terminate_spec_witness :
    termWitP.resources_held.Nodup ∧
    (Process.terminate termWitP termWitM).1.resources_held = [] ∧
    (Process.terminate termWitP termWitM).1.resources_requested = [6] ∧
    (Process.terminate termWitP termWitM).1.status = Status.TERMINATED := by
  have hreg : ∀ rid ∈ termWitP.resources_held, ∃ r, getKey termWitM rid = some r ∧
      r.rid = rid ∧ (getKey r.allocated_to termWitP.pid).isSome = true := by
    intro rid hrid
    rcases List.mem_cons.mp hrid with rfl | hrid
    · exact ⟨⟨4, 1, 0, [(1, 1)]⟩, by decide, by decide, by decide⟩
    · rcases List.mem_cons.mp hrid with rfl | hrid
      · exact ⟨⟨5, 2, 1, [(1, 1)]⟩, by decide, by decide, by decide⟩
      · simp [termWitP] at hrid
  have h := terminate_spec termWitP termWitM (by decide) hreg
  exact ⟨by decide, h.1, by rw [h.2.1]; rfl, h.2.2.1⟩

theorem needEntry_eq (a : Nat) (b : Bool) :
    max (a + (if b then 1 else 0)) 1 - a =
      (if b then 1 else if a = 0 then 1 else 0) := by
  cases b
  · by_cases ha : a = 0
    · subst ha
      simp
    · simp only [if_neg ha, Bool.false_eq_true, if_false]
      rw [Nat.max_eq_left (by omega)]
      omega
  · simp only [if_true]
    rw [Nat.max_eq_left (by omega)]
    omega

/-- C6 counterexample: the source scans with need minus allocation and
reports the state safe, while the scan described by the claim (need equal
to the floored formula itself) reports it unsafe. -/
theorem bankers_claim_counterexample :
    detect_using_bankers_algorithm bankSys = (false, []) ∧
    safetyCheckClaim bankSys = (true, []) := by
  decide

/-- C6 amended: detect_using_bankers_algorithm runs the work/finish scan
with need[p][r] equal to the floored max-demand formula minus the current
allocation (1 when p requests r or holds none of r, else 0); it returns
(false, []) when every process finishes and otherwise (true, pids) with
pids the processes whose status is WAITING at call time. -/
theorem bankers_eq_amended (s : System) :
    detect_using_bankers_algorithm s = safetyCheckAmended s := by
  have hneed :
      ((s.processes.map fun ep => maxDemandRow s ep.1 ep.2).zip
        (s.processes.map fun ep => allocRow s ep.1)).map
          (fun q => (q.1.zip q.2).map fun x => x.1 - x.2) =
      s.processes.map fun ep => needRowAmended s ep.1 ep.2 := by
    rw [List.zip_map', List.map_map]
    apply List.map_congr_left
    intro ep _
    simp only [Function.comp]
    rw [maxDemandRow, allocRow, needRowAmended, List.zip_map', List.map_map]
    apply List.map_congr_left
    intro rid _
    simp only [Function.comp]
    exact needEntry_eq (allocEntry s ep.1 rid) (ep.2.resources_requested.contains rid)
  rw [detect_using_bankers_algorithm, safetyCheckAmended, is_safe_state]
  simp only [hneed]

/-- C7: evaluating the resolver at the failing input.  The deadlock is
detected and the victim selected is process 0, so the truthiness guard
written for None fires on the id 0: the strategy returns True without
mutating the system and without re-running detection, although the cycle
is still present afterwards. -/
theorem resolver_pid_zero_bug :
    (detect_using_resource_allocation_graph pidZeroSys).1 = true ∧
    selectProcess (fun l => l.headD 0) pidZeroSys
      (detect_using_resource_allocation_graph pidZeroSys).2 true = some 0 ∧
    resolve_deadlock (fun l => l.headD 0) pidZeroSys Strategy.termination true
      = (true, pidZeroSys) ∧
    (detect_using_resource_allocation_graph
      (resolve_deadlock (fun l => l.headD 0) pidZeroSys Strategy.termination true).2).1
      = true := by
  decide

theorem hasKey_iff_mem {α : Type} (m : List (Nat × α)) (k : Nat) :
    hasKey m k = true ↔ k ∈ m.map Prod.fst := by
  rw [hasKey, Option.isSome_iff_ne_none]
  constructor
  · intro h
    by_contra h2
    exact h ((getKey_eq_none_iff m k).mpr h2)
  · intro h h2
    exact ((getKey_eq_none_iff m k).mp h2) h

/-- C8: restoring a snapshot taken immediately before leaves the system
observably identical: the same process ids in the same order with the same
statuses, held ids and requested ids, the same resource ids with the same
total, available and allocation map, and the same clock.  The hypothesis
states the consistency of the starting state: every held or requested id
is registered in the resource table (otherwise the source restore raises
KeyError). -/
theorem snapshot_roundtrip (s : System)
    (hwf : ∀ ep ∈ s.processes,
      (∀ rid ∈ ep.2.resources_held, hasKey s.resources rid = true) ∧
      (∀ rid ∈ ep.2.resources_requested, hasKey s.resources rid = true)) :
    ∃ s1, restoreSnapshot s (takeSnapshot s) = some s1 ∧
      s1.processes.map (fun ep =>
        (ep.1, ep.2.status, ep.2.resources_held, ep.2.resources_requested)) =
      s.processes.map (fun ep =>
        (ep.1, ep.2.status, ep.2.resources_held, ep.2.resources_requested)) ∧
      s1.resources.map (fun er =>
        (er.1, er.2.total_instances, er.2.available_instances, er.2.allocated_to)) =
      s.resources.map (fun er =>
        (er.1, er.2.total_instances, er.2.available_instances, er.2.allocated_to)) ∧
      s1.time = s.time := by
  have hkeys : ((takeSnapshot s).resources.map fun er =>
      (er.1, Resource.mk er.1 er.2.total_instances er.2.available_instances
        er.2.allocated_to)).map Prod.fst = s.resources.map Prod.fst := by
    rw [takeSnapshot]
    simp [List.map_map, Function.comp]
  have hcheck : (takeSnapshot s).processes.all (fun ep =>
      ep.2.resources_held.all (fun rid => hasKey ((takeSnapshot s).resources.map fun er =>
        (er.1, Resource.mk er.1 er.2.total_instances er.2.available_instances
          er.2.allocated_to)) rid) &&
      ep.2.resources_requested.all (fun rid => hasKey ((takeSnapshot s).resources.map fun er =>
        (er.1, Resource.mk er.1 er.2.total_instances er.2.available_instances
          er.2.allocated_to)) rid)) = true := by
    rw [List.all_eq_true]
    intro ep hep
    rw [takeSnapshot] at hep
    simp only [List.mem_map] at hep
    rcases hep with ⟨ep0, hep0, rfl⟩
    rcases hwf ep0 hep0 with ⟨hheld, hreq⟩
    rw [Bool.and_eq_true, List.all_eq_true, List.all_eq_true]
    constructor
    · intro rid hrid
      rw [hasKey_iff_mem, hkeys]
      exact (hasKey_iff_mem s.resources rid).mp (hheld rid hrid)
    · intro rid hrid
      rw [hasKey_iff_mem, hkeys]
      exact (hasKey_iff_mem s.resources rid).mp (hreq rid hrid)
  rw [restoreSnapshot]
  simp only [hcheck, if_true]
  refine ⟨_, rfl, ?_, ?_, rfl⟩
  · rw [takeSnapshot]
    simp [List.map_map, Function.comp]
  · rw [takeSnapshot]
    simp [List.map_map, Function.comp]

/-- Witness for C8 at the concrete system. -/
theorem snapshot_roundtrip_witness :
    (restoreSnapshot snapWitSys (takeSnapshot snapWitSys)).isSome = true := by
  rcases snapshot_roundtrip snapWitSys (by decide) with ⟨s1, h1, _⟩
  rw [h1]
  rfl

theorem getKey_some_mem {α : Type} :
    ∀ (m : List (Nat × α)) (k : Nat) (v : α), getKey m k = some v → (k, v) ∈ m := by
  intro m
  induction m with
  | nil =>
    intro k v h
    simp [getKey] at h
  | cons e rest ih =>
    intro k v h
    rcases e with ⟨k0, v0⟩
    by_cases h1 : k0 = k
    · subst h1
      simp [getKey] at h
      subst h
      exact List.mem_cons_self _ _
    · simp [getKey, h1] at h
      exact List.mem_cons_of_mem _ (ih k v h)

theorem setKey_forall {α : Type} (P : α → Prop) :
    ∀ (m : List (Nat × α)) (k : Nat) (v : α),
      (∀ e ∈ m, P e.2) → P v → ∀ e ∈ setKey m k v, P e.2 := by
  intro m
  induction m with
  | nil =>
    intro k v _ hv e he
    simp [setKey] at he
    rw [he]
    exact hv
  | cons e0 rest ih =>
    intro k v hm hv e he
    by_cases h1 : e0.1 = k
    · simp [setKey, h1] at he
      rcases he with he | he
      · rw [he]
        exact hv
      · exact hm e (List.mem_cons_of_mem _ he)
    · simp [setKey, h1] at he
      rcases he with he | he
      · rw [he]
        exact hm e0 (List.mem_cons_self _ _)
      · exact ih k v (fun e2 he2 => hm e2 (List.mem_cons_of_mem _ he2)) hv e he

theorem hasKey_some {α : Type} (m : List (Nat × α)) (k : Nat)
    (h : hasKey m k = true) : ∃ v, getKey m k = some v := by
  rw [hasKey] at h
  cases h2 : getKey m k with
  | none => rw [h2] at h; simp at h
  | some v => exact ⟨v, rfl⟩

theorem allocate_resinv (r : Resource) (pid k : Nat) (h : ResInv r) :
    ResInv (r.allocate pid k).2 := by
  rw [Resource.allocate]
  by_cases hle : k ≤ r.available_instances
  · simp only [hle, if_true]
    by_cases hk : hasKey r.allocated_to pid = true
    · rcases hasKey_some r.allocated_to pid hk with ⟨cur, hcur⟩
      simp only [hk, if_true]
      rw [hcur]
      simp only [Option.getD_some]
      constructor
      · show (r.available_instances - k) +
          sumValues (setKey r.allocated_to pid (cur + k)) = r.total_instances
        have hs := sumValues_setKey r.allocated_to pid (cur + k) cur hcur
        have hc := h.1
        have hsum := getKey_le_sumValues r.allocated_to pid cur hcur
        omega
      · show ((setKey r.allocated_to pid (cur + k)).map Prod.fst).Nodup
        rw [mapFst_setKey_of_hasKey r.allocated_to pid _ hk]
        exact h.2
    · have hk2 : hasKey r.allocated_to pid = false := by
        cases h2 : hasKey r.allocated_to pid
        · rfl
        · exact absurd h2 hk
      have hnone : getKey r.allocated_to pid = none := by
        rw [hasKey] at hk2
        cases h2 : getKey r.allocated_to pid with
        | none => rfl
        | some v => rw [h2] at hk2; simp at hk2
      have hnotin : pid ∉ r.allocated_to.map Prod.fst :=
        (getKey_eq_none_iff r.allocated_to pid).mp hnone
      simp only [hk2, Bool.false_eq_true, if_false]
      constructor
      · show (r.available_instances - k) +
          sumValues (r.allocated_to ++ [(pid, k)]) = r.total_instances
        rw [sumValues_append_single]
        have hc := h.1
        omega
      · show ((r.allocated_to ++ [(pid, k)]).map Prod.fst).Nodup
        rw [List.map_append, List.nodup_append]
        refine ⟨h.2, by simp, ?_⟩
        intro a ha hb
        simp at hb
        subst hb
        exact hnotin ha
  · simp only [hle, if_false]
    exact h

theorem release_resinv (r : Resource) (pid : Nat) (ko : Option Nat) (h : ResInv r) :
    ResInv (r.release pid ko).2 := by
  rw [Resource.release]
  cases hcur : getKey r.allocated_to pid with
  | none => exact h
  | some cur =>
    simp only []
    by_cases hk : ko.getD cur ≤ cur
    · simp only [hk, if_true]
      have hcle : cur ≤ sumValues r.allocated_to := getKey_le_sumValues _ _ _ hcur
      have hs := sumValues_setKey r.allocated_to pid (cur - ko.getD cur) cur hcur
      have hhk : hasKey r.allocated_to pid = true := by
        rw [hasKey, hcur]
        rfl
      have hkeys := mapFst_setKey_of_hasKey r.allocated_to pid (cur - ko.getD cur) hhk
      have hnd1 : ((setKey r.allocated_to pid (cur - ko.getD cur)).map Prod.fst).Nodup := by
        rw [hkeys]
        exact h.2
      by_cases hz : cur - ko.getD cur = 0
      · simp only [hz, if_true]
        have hget1 : getKey (setKey r.allocated_to pid 0) pid = some 0 :=
          getKey_setKey_self _ _ _
        have hnd0 : ((setKey r.allocated_to pid 0).map Prod.fst).Nodup := by
          rw [mapFst_setKey_of_hasKey r.allocated_to pid _ hhk]
          exact h.2
        have hs0 := sumValues_setKey r.allocated_to pid 0 cur hcur
        have hs2 := sumValues_delKey _ pid 0 hnd0 hget1
        constructor
        · show (r.available_instances + ko.getD cur) +
            sumValues (delKey (setKey r.allocated_to pid 0) pid) = r.total_instances
          have hc := h.1
          omega
        · show ((delKey (setKey r.allocated_to pid 0) pid).map Prod.fst).Nodup
          exact hnd0.sublist ((delKey_sublist _ pid).map Prod.fst)
      · simp only [hz, if_false]
        constructor
        · show (r.available_instances + ko.getD cur) +
            sumValues (setKey r.allocated_to pid (cur - ko.getD cur)) = r.total_instances
          have hc := h.1
          omega
        · exact hnd1
    · simp only [hk, if_false]
      exact h

theorem request_res_component (p : Process) (r : Resource) (k : Nat)
    (h : ResInv r) : ResInv (p.request_resource r k).2.2 := by
  rw [Process.request_resource]
  by_cases ha : r.is_available = true
  · simp only [ha, if_true]
    cases hall : r.allocate p.pid k with
    | mk ok r1 =>
      have hr1 : r1 = (r.allocate p.pid k).2 := by rw [hall]
      cases ok
      · simp only [Process.requestWait]
        exact h
      · simp only []
        rw [hr1]
        exact allocate_resinv r p.pid k h
  · have ha2 : r.is_available = false := by
      cases h2 : r.is_available
      · rfl
      · exact absurd h2 ha
    simp only [ha2, Bool.false_eq_true, if_false, Process.requestWait]
    exact h

theorem release_res_component (p : Process) (r : Resource) (ko : Option Nat)
    (h : ResInv r) : ResInv (p.release_resource r ko).2.2 := by
  rw [Process.release_resource]
  by_cases hc : p.resources_held.contains r.rid = true
  · simp only [hc, if_true]
    cases hrel : r.release p.pid ko with
    | mk ok r1 =>
      have hr1 : r1 = (r.release p.pid ko).2 := by rw [hrel]
      cases ok
      · exact h
      · simp only []
        rw [hr1]
        exact release_resinv r p.pid ko h
  · have hc2 : p.resources_held.contains r.rid = false := by
      cases h2 : p.resources_held.contains r.rid
      · rfl
      · exact absurd h2 hc
    simp only [hc2, Bool.false_eq_true, if_false]
    exact h

theorem terminate_fold_inv (lst : List Nat) :
    ∀ acc : Process × List (Nat × Resource), (∀ e ∈ acc.2, ResInv e.2) →
      ∀ e ∈ (lst.foldl terminateStep acc).2, ResInv e.2 := by
  induction lst with
  | nil => exact fun acc h => h
  | cons rid rest ih =>
    intro acc hacc
    rw [List.foldl_cons]
    apply ih
    rw [terminateStep]
    cases hg : getKey acc.2 rid with
    | none => exact hacc
    | some r =>
      simp only []
      apply setKey_forall ResInv acc.2 rid _ hacc
      exact release_res_component acc.1 r none (hacc (rid, r) (getKey_some_mem acc.2 rid r hg))

theorem rollback_fold_inv (pid : Nat) (lst : List Nat) :
    ∀ acc : Process × List (Nat × Resource), (∀ e ∈ acc.2, ResInv e.2) →
      ∀ e ∈ (lst.foldl (rollbackStep pid) acc).2, ResInv e.2 := by
  induction lst with
  | nil => exact fun acc h => h
  | cons rid rest ih =>
    intro acc hacc
    rw [List.foldl_cons]
    apply ih
    rw [rollbackStep]
    cases hg : getKey acc.2 rid with
    | none => exact hacc
    | some r =>
      simp only []
      apply setKey_forall ResInv acc.2 rid _ hacc
      exact release_resinv r pid none (hacc (rid, r) (getKey_some_mem acc.2 rid r hg))

theorem sysinv_request (s : System) (pid rid k : Nat) (h : SysInv s) :
    SysInv (s.request_resource pid rid k).2 := by
  rw [System.request_resource]
  cases hp : getKey s.processes pid with
  | none => exact h
  | some p =>
    cases hr : getKey s.resources rid with
    | none => exact h
    | some r =>
      simp only []
      intro er her
      exact setKey_forall ResInv s.resources rid _ h
        (request_res_component p r 1 (h (rid, r) (getKey_some_mem s.resources rid r hr)))
        er her

theorem sysinv_release (s : System) (pid rid : Nat) (ko : Option Nat) (h : SysInv s) :
    SysInv (s.release_resource pid rid ko).2 := by
  rw [System.release_resource]
  cases hp : getKey s.processes pid with
  | none => exact h
  | some p =>
    cases hr : getKey s.resources rid with
    | none => exact h
    | some r =>
      simp only []
      intro er her
      exact setKey_forall ResInv s.resources rid _ h
        (release_res_component p r none (h (rid, r) (getKey_some_mem s.resources rid r hr)))
        er her

theorem sysinv_terminate_table (p : Process) (s : System) (h : SysInv s) :
    ∀ e ∈ (p.terminate s.resources).2, ResInv e.2 := by
  rw [terminate_eq_fold]
  exact terminate_fold_inv p.resources_held (p, s.resources) h

theorem sysinv_resolveByTermination (choice : List Nat → Nat) (s : System)
    (dl : List Nat) (pb : Bool) (h : SysInv s) :
    SysInv (resolveByTermination choice s dl pb).2 := by
  rw [resolveByTermination]
  cases selectProcess choice s dl pb with
  | none => exact h
  | some pid =>
    by_cases hz : pid = 0
    · simp only [hz, if_true]
      exact h
    · simp only [hz, if_false]
      cases hp : getKey s.processes pid with
      | none => exact h
      | some p =>
        simp only []
        intro er her
        exact sysinv_terminate_table p s h er her

theorem sysinv_resolveByPreemption (choice : List Nat → Nat) (s : System)
    (dl : List Nat) (pb : Bool) (h : SysInv s) :
    SysInv (resolveByPreemption choice s dl pb).2 := by
  rw [resolveByPreemption]
  cases selectProcess choice s dl pb with
  | none => exact h
  | some pid =>
    by_cases hz : pid = 0
    · simp only [hz, if_true]
      exact h
    · simp only [hz, if_false]
      cases hp : getKey s.processes pid with
      | none => exact h
      | some p =>
        simp only []
        by_cases hh : p.resources_held.isEmpty = true
        · simp only [hh, if_true]
          exact h
        · have hh2 : p.resources_held.isEmpty = false := by
            cases h2 : p.resources_held.isEmpty
            · rfl
            · exact absurd h2 hh
          simp only [hh2, Bool.false_eq_true, if_false]
          cases hr : getKey s.resources (choice p.resources_held) with
          | none => exact h
          | some r =>
            simp only []
            cases hrel : r.release pid none with
            | mk ok r1 =>
              have hr1 : r1 = (r.release pid none).2 := by rw [hrel]
              cases ok
              · exact h
              · simp only []
                intro er her
                apply setKey_forall ResInv s.resources (choice p.resources_held) _ h
                  _ er her
                rw [hr1]
                exact release_resinv r pid none
                  (h (choice p.resources_held, r)
                    (getKey_some_mem s.resources (choice p.resources_held) r hr))

theorem sysinv_resolveByRollback (choice : List Nat → Nat) (s : System)
    (dl : List Nat) (pb : Bool) (h : SysInv s) :
    SysInv (resolveByRollback choice s dl pb).2 := by
  rw [resolveByRollback]
  cases selectProcess choice s dl pb with
  | none => exact h
  | some pid =>
    by_cases hz : pid = 0
    · simp only [hz, if_true]
      exact h
    · simp only [hz, if_false]
      cases hp : getKey s.processes pid with
      | none => exact h
      | some p =>
        simp only []
        intro er her
        exact rollback_fold_inv pid p.resources_held (p, s.resources) h er her

theorem sysinv_resolve (choice : List Nat → Nat) (s : System) (strat : Strategy)
    (pb : Bool) (h : SysInv s) :
    SysInv (resolve_deadlock choice s strat pb).2 := by
  unfold resolve_deadlock
  by_cases hd : (detect_using_resource_allocation_graph s).1 = true
  · simp only [hd, if_true]
    cases strat with
    | termination => exact sysinv_resolveByTermination choice s _ pb h
    | preemption => exact sysinv_resolveByPreemption choice s _ pb h
    | rollback => exact sysinv_resolveByRollback choice s _ pb h
  · have hd2 : (detect_using_resource_allocation_graph s).1 = false := by
      cases h2 : (detect_using_resource_allocation_graph s).1
      · rfl
      · exact absurd h2 hd
    simp only [hd2, Bool.false_eq_true, if_false]
    exact h

theorem sysinv_snapshotRestore (s : System) (h : SysInv s) :
    SysInv ((restoreSnapshot s (takeSnapshot s)).getD s) := by
  rw [restoreSnapshot]
  by_cases hc : ((takeSnapshot s).processes.all fun ep =>
      ep.2.resources_held.all (fun rid => hasKey ((takeSnapshot s).resources.map fun er =>
        (er.1, Resource.mk er.1 er.2.total_instances er.2.available_instances
          er.2.allocated_to)) rid) &&
      ep.2.resources_requested.all (fun rid => hasKey ((takeSnapshot s).resources.map fun er =>
        (er.1, Resource.mk er.1 er.2.total_instances er.2.available_instances
          er.2.allocated_to)) rid)) = true
  · simp only [hc, if_true, Option.getD]
    intro er her
    rw [takeSnapshot] at her
    simp only [List.map_map, List.mem_map, Function.comp] at her
    rcases her with ⟨er0, her0, rfl⟩
    have h0 := h er0 her0
    exact ⟨h0.1, h0.2⟩
  · have hc2 : ((takeSnapshot s).processes.all fun ep =>
        ep.2.resources_held.all (fun rid => hasKey ((takeSnapshot s).resources.map fun er =>
          (er.1, Resource.mk er.1 er.2.total_instances er.2.available_instances
            er.2.allocated_to)) rid) &&
        ep.2.resources_requested.all (fun rid => hasKey ((takeSnapshot s).resources.map fun er =>
          (er.1, Resource.mk er.1 er.2.total_instances er.2.available_instances
            er.2.allocated_to)) rid)) = false := by
      cases h2 : ((takeSnapshot s).processes.all fun ep =>
          ep.2.resources_held.all (fun rid => hasKey ((takeSnapshot s).resources.map fun er =>
            (er.1, Resource.mk er.1 er.2.total_instances er.2.available_instances
              er.2.allocated_to)) rid) &&
          ep.2.resources_requested.all (fun rid => hasKey ((takeSnapshot s).resources.map fun er =>
            (er.1, Resource.mk er.1 er.2.total_instances er.2.available_instances
              er.2.allocated_to)) rid))
      · rfl
      · exact absurd h2 hc
    simp only [hc2, Bool.false_eq_true, if_false, Option.getD]
    exact h

theorem sysinv_execOp (choice : List Nat → Nat) (s : System) (op : Op)
    (h : SysInv s) : SysInv (execOp choice s op) := by
  cases op with
  | request pid rid k => exact sysinv_request s pid rid k h
  | release pid rid ko => exact sysinv_release s pid rid ko h
  | terminate pid =>
    rw [execOp]
    cases hp : getKey s.processes pid with
    | none => exact h
    | some p =>
      simp only []
      intro er her
      exact sysinv_terminate_table p s h er her
  | resolve strat pb => exact sysinv_resolve choice s strat pb h
  | snapshotRestore => exact sysinv_snapshotRestore s h

theorem processes_fold_resources (pids : List Nat) :
    ∀ s : System,
      (pids.foldl (fun s pid => s.add_process (Process.mk pid [] [] Status.RUNNING)) s).resources
        = s.resources := by
  induction pids with
  | nil => exact fun s => rfl
  | cons pid rest ih =>
    intro s
    rw [List.foldl_cons, ih]
    rfl

theorem sysinv_resources_fold (resSpecs : List (Nat × Nat)) :
    ∀ s : System, SysInv s →
      SysInv (resSpecs.foldl (fun s q => s.add_resource (Resource.mk q.1 q.2 q.2 [])) s) := by
  induction resSpecs with
  | nil => exact fun s h => h
  | cons spec rest ih =>
    intro s h
    rw [List.foldl_cons]
    apply ih
    intro er her
    apply setKey_forall ResInv s.resources (Resource.mk spec.1 spec.2 spec.2 []).rid _ h
      _ er her
    constructor
    · simp [sumValues]
    · simp

theorem sysinv_init (pids : List Nat) (resSpecs : List (Nat × Nat)) :
    SysInv (initSystem pids resSpecs) := by
  rw [initSystem]
  apply sysinv_resources_fold
  intro er her
  rw [processes_fold_resources] at her
  simp at her

theorem sysinv_runOps (choice : List Nat → Nat) (ops : List Op) :
    ∀ s : System, SysInv s → SysInv (runOps choice s ops) := by
  induction ops with
  | nil => exact fun s h => h
  | cons op rest ih =>
    intro s h
    rw [runOps, List.foldl_cons]
    exact ih (execOp choice s op) (sysinv_execOp choice s op h)

/-- C2: the conservation invariant available plus allocated equals total
holds for every resource after every sequence of public operations
(request, release, terminate, the three resolution strategies under any
victim oracle, and snapshot plus restore), starting from a freshly
created system. -/
theorem conservation_invariant (choice : List Nat → Nat) (pids : List Nat)
    (resSpecs : List (Nat × Nat)) (ops : List Op) :
    SysConsistent (runOps choice (initSystem pids resSpecs) ops) := by
  have h := sysinv_runOps choice ops (initSystem pids resSpecs) (sysinv_init pids resSpecs)
  intro er her
  exact (h er her).1

end DeadlockSim
